import Mathlib

/-!
Verification of the grid layout and pagination engine of `make_cards_pdf.py`
(the card-sheet generator of the a4-card-imposer repository).

The Python source is shallowly embedded:
* physical measurements and page coordinates (Python floats) are modelled as
  rationals `ℚ`, with the literal `1e-6` rendered as `1/1000000`;
* image pixel sizes are natural numbers;
* file names (Python `pathlib.Path` values, always bare file names here) are
  modelled as `List Char`, and Python string operations (`str.zfill`,
  `str.lower`, `Path.stem`, `Path.suffix`, lexicographic comparison by code
  point) are re-implemented on `List Char` following CPython's semantics;
* functions that raise exceptions return `Except`, with the data interpolated
  into the exception message carried as structured fields.
-/

namespace CardImposer

instance {ε α : Type} [DecidableEq ε] [DecidableEq α] : DecidableEq (Except ε α) := fun x y =>
  match x, y with
  | .ok a, .ok b =>
    if h : a = b then isTrue (by rw [h]) else isFalse (by intro hc; cases hc; exact h rfl)
  | .error e, .error f =>
    if h : e = f then isTrue (by rw [h]) else isFalse (by intro hc; cases hc; exact h rfl)
  | .ok _, .error _ => isFalse (by intro hc; cases hc)
  | .error _, .ok _ => isFalse (by intro hc; cases hc)

/-- `MM_TO_PT = 72.0 / 25.4`: millimetres to PDF points (src line 11). -/
def MM_TO_PT : ℚ := 72 / (254 / 10)

/-- `mm(x) = x * MM_TO_PT` (src line 13). -/
def mmLen (x : ℚ) : ℚ := x * MM_TO_PT

/-- A file name (one path component), as a list of characters. -/
abbrev Name := List Char

/-- Index of the last `'.'` in a character list (Python `str.rfind('.')`),
`none` when there is no dot. -/
def lastDotIdx : Name → Option Nat
  | [] => none
  | c :: cs =>
    match lastDotIdx cs with
    | some i => some (i + 1)
    | none => if c = '.' then some 0 else none

/-- CPython `PurePath.stem`: the file name without its last extension.
`stem = name[:i]` when `i = name.rfind('.')` satisfies `0 < i < len(name)-1`,
otherwise the whole name. -/
def pathStem (name : Name) : Name :=
  match lastDotIdx name with
  | some i => if 0 < i ∧ i < name.length - 1 then name.take i else name
  | none => name

/-- CPython `PurePath.suffix`: the last extension including the dot.
`suffix = name[i:]` when `i = name.rfind('.')` satisfies `0 < i < len(name)-1`,
otherwise empty. -/
def pathSuffix (name : Name) : Name :=
  match lastDotIdx name with
  | some i => if 0 < i ∧ i < name.length - 1 then name.drop i else []
  | none => []

/-- Python `str.lower` (ASCII case folding, which is all the repository's
file names use). -/
def lowerName (s : Name) : Name := s.map Char.toLower

/-- Python `str.zfill(width)`: left-pad with `'0'` to `width` characters,
keeping a leading sign character in front of the padding. -/
def zfill (width : Nat) (s : Name) : Name :=
  if width ≤ s.length then s
  else
    match s with
    | [] => List.replicate width '0'
    | c :: rest =>
      if c = '+' ∨ c = '-' then c :: (List.replicate (width - s.length) '0' ++ rest)
      else List.replicate (width - s.length) '0' ++ (c :: rest)

/-- The accepted raster extensions `{".jpg", ".jpeg", ".png"}` (src line 17). -/
def exts : List Name := [".jpg".data, ".jpeg".data, ".png".data]

/-- The sort key of `list_images` (src lines 20-22):
`(stem.zfill(32), name.lower())`. -/
def sort_key (name : Name) : Name × Name := (zfill 32 (pathStem name), lowerName name)

/-- The ordering Python's `sorted` establishes on the keys of `sort_key`:
lexicographic comparison of the pair, each component compared as Python
compares strings (code-point lexicographic). -/
def keyLE (a b : Name) : Prop :=
  (sort_key a).1 < (sort_key b).1 ∨
    ((sort_key a).1 = (sort_key b).1 ∧ (sort_key a).2 ≤ (sort_key b).2)

instance : DecidableRel keyLE := fun a b => by
  unfold keyLE
  exact inferInstance

instance : IsTotal Name keyLE where
  total a b := by
    unfold keyLE
    rcases lt_trichotomy (sort_key a).1 (sort_key b).1 with h | h | h
    · exact Or.inl (Or.inl h)
    · rcases le_total (sort_key a).2 (sort_key b).2 with h2 | h2
      · exact Or.inl (Or.inr ⟨h, h2⟩)
      · exact Or.inr (Or.inr ⟨h.symm, h2⟩)
    · exact Or.inr (Or.inl h)

instance : IsTrans Name keyLE where
  trans a b c := by
    unfold keyLE
    rintro (h1 | ⟨h1, h1'⟩) (h2 | ⟨h2, h2'⟩)
    · exact Or.inl (h1.trans h2)
    · exact Or.inl (h2 ▸ h1)
    · exact Or.inl (h1 ▸ h2)
    · exact Or.inr ⟨h1.trans h2, h1'.trans h2'⟩

/-- One directory entry as `list_images` sees it: a name and whether it is a
regular file (`p.is_file()`). -/
structure DirEntry where
  name : Name
  isFile : Bool
deriving DecidableEq

/-- `list_images` (src lines 16-23): keep regular files whose lower-cased
extension is accepted, then sort by `sort_key`.  Python's `sorted` is the
stable sort by that key, rendered here as insertion sort (stable for the
total preorder `keyLE`, hence the same function). -/
def list_images (entries : List DirEntry) : List Name :=
  List.insertionSort keyLE
    ((entries.filter fun p => p.isFile && exts.contains (lowerName (pathSuffix p.name))).map
      DirEntry.name)

/-- The pairing mode, `--match` in the CLI (argparse restricts it to these
two choices, src line 130). -/
inductive MatchMode where
  | by_name
  | by_order
deriving DecidableEq

/-- The two exceptions `match_pairs` raises, with the data its messages
interpolate (src lines 37-40 and 44-45). -/
inductive MatchError where
  | missingBacks (missing : List Name)
  | countMismatch (frontCount backCount : Nat)
deriving DecidableEq

/-- The dict `{b.stem: b for b in backs}` (src line 27), as its lookup
function: iterating `backs` in order, a later back with the same stem
replaces an earlier one. -/
def back_map (backs : List Name) : Name → Option Name :=
  backs.foldl (fun m b => fun s => if s = pathStem b then some b else m s) (fun _ => none)

/-- The loop of `match_pairs` in by-name mode (src lines 29-35): walk the
fronts in order, accumulating `(pairs, missing)`. -/
def collectPairs (bm : Name → Option Name) : List Name → List (Name × Name) × List Name
  | [] => ([], [])
  | f :: fs =>
    let rest := collectPairs bm fs
    match bm (pathStem f) with
    | some b => ((f, b) :: rest.1, rest.2)
    | none => (rest.1, f :: rest.2)

/-- `match_pairs` (src lines 25-46). -/
def match_pairs (fronts backs : List Name) (mode : MatchMode) :
    Except MatchError (List (Name × Name)) :=
  match mode with
  | .by_name =>
    let res := collectPairs (back_map backs) fronts
    if res.2 = [] then .ok res.1 else .error (.missingBacks res.2)
  | .by_order =>
    if fronts.length ≠ backs.length then
      .error (.countMismatch fronts.length backs.length)
    else
      .ok (fronts.zip backs)

/-- The `RuntimeError` of `positions_grid` (src lines 86-91), with the data
its message interpolates: needed and usable extents divided by `MM_TO_PT`
(i.e. converted back to millimetres), plus the fixed remediation line. -/
structure LayoutOverflow where
  neededWmm : ℚ
  neededHmm : ℚ
  usableWmm : ℚ
  usableHmm : ℚ
  guidance : String
deriving DecidableEq

/-- `positions_grid` (src lines 67-105): lower-left `(x, y)` positions for
each slot in row-major order, top row first, or the overflow error. -/
def positions_grid (page_w page_h card_w card_h : ℚ) (cols rows : Nat)
    (margin_left margin_right margin_top margin_bottom gap_x gap_y : ℚ) :
    Except LayoutOverflow (List (ℚ × ℚ)) :=
  let usable_w := page_w - margin_left - margin_right
  let usable_h := page_h - margin_top - margin_bottom
  let need_w := (cols : ℚ) * card_w + ((cols : ℚ) - 1) * gap_x
  let need_h := (rows : ℚ) * card_h + ((rows : ℚ) - 1) * gap_y
  if need_w > usable_w + 1 / 1000000 ∨ need_h > usable_h + 1 / 1000000 then
    .error
      { neededWmm := need_w / MM_TO_PT
        neededHmm := need_h / MM_TO_PT
        usableWmm := usable_w / MM_TO_PT
        usableHmm := usable_h / MM_TO_PT
        guidance := "Reduce margins/gaps or card size, or change grid." }
  else
    let start_x := margin_left + (usable_w - need_w) / 2
    let start_y_top := page_h - margin_top - (usable_h - need_h) / 2
    .ok ((List.range rows).flatMap fun (r : Nat) =>
      (List.range cols).map fun (c : Nat) =>
        (start_x + (c : ℚ) * (card_w + gap_x),
         start_y_top - (r : ℚ) * (card_h + gap_y) - card_h))

/-- `draw_image_fit` (src lines 48-64), reduced to the placement geometry it
computes: given the slot's lower-left `(x, y)`, the slot size `(w, h)` and
the image pixel size `(iw, ih)`, return `(dx, dy, dw, dh)`: the displayed
rectangle's lower-left corner and size. -/
def draw_image_fit (x y w h : ℚ) (iw ih : Nat) : ℚ × ℚ × ℚ × ℚ :=
  let scale := min (w / (iw : ℚ)) (h / (ih : ℚ))
  let dw := (iw : ℚ) * scale
  let dh := (ih : ℚ) * scale
  let dx := x + (w - dw) / 2
  let dy := y + (h - dh) / 2
  (dx, dy, dw, dh)

/-- One emitted PDF page of the main loop (src lines 184-201): the images
drawn with the slot each was drawn at, and the slots that received cut
marks (empty when `--cut_marks` is off). -/
structure Page (α : Type) where
  draws : List (α × (ℚ × ℚ))
  marks : List (ℚ × ℚ)
deriving DecidableEq

/-- `pairs[start:start+per_page]` for `start in range(0, total, per_page)`
(src lines 184-185): the consecutive batches.  Faithful to the Python loop
for `perPage ≥ 1` (Python raises `ValueError` on step 0). -/
def splitBatches (perPage : Nat) : List α → List (List α)
  | [] => []
  | x :: xs => (x :: xs).take perPage :: splitBatches perPage (xs.drop (perPage - 1))
termination_by l => l.length
decreasing_by
  simp only [List.length_drop, List.length_cons]
  omega

/-- The page-emission loop of `main` (src lines 183-201): for each batch,
one front page then one back page; each batch element `i` is drawn at
`slots[i]`; cut marks, when enabled, go on `slots[:len(batch)]`. -/
def renderPages (pairs : List (α × α)) (slots : List (ℚ × ℚ)) (perPage : Nat)
    (cutMarks : Bool) : List (Page α) :=
  (splitBatches perPage pairs).flatMap fun batch =>
    [{ draws := (batch.map Prod.fst).zip slots
       marks := if cutMarks then slots.take batch.length else [] },
     { draws := (batch.map Prod.snd).zip slots
       marks := if cutMarks then slots.take batch.length else [] }]

/-- Two axis-aligned `w × h` rectangles with lower-left corners `p` and `q`
have disjoint interiors. -/
def rectDisjoint (p q : ℚ × ℚ) (w h : ℚ) : Prop :=
  p.1 + w ≤ q.1 ∨ q.1 + w ≤ p.1 ∨ p.2 + h ≤ q.2 ∨ q.2 + h ≤ p.2

/-- The card rectangle with lower-left corner `p` lies inside the usable
area bounded by the four margins. -/
def insideUsable (p : ℚ × ℚ) (page_w page_h card_w card_h ml mr mt mb : ℚ) : Prop :=
  ml ≤ p.1 ∧ p.1 + card_w ≤ page_w - mr ∧ mb ≤ p.2 ∧ p.2 + card_h ≤ page_h - mt

/-- The ordering claimed by the spec for `listImages`: the zero-padded stem,
tie-broken by the ORIGINAL file name (the code instead tie-breaks by the
lower-cased file name). -/
def claimedKeyLE (a b : Name) : Prop :=
  zfill 32 (pathStem a) < zfill 32 (pathStem b) ∨
    (zfill 32 (pathStem a) = zfill 32 (pathStem b) ∧ a ≤ b)

instance : DecidableRel claimedKeyLE := fun a b => by
  unfold claimedKeyLE
  exact inferInstance

/-! ### Helper lemmas about the row-major grid list -/

theorem grid_flatMap_length {α : Type} (g : Nat → Nat → α) (rows cols : Nat) :
    ((List.range rows).flatMap fun r => (List.range cols).map (g r)).length = rows * cols := by
  induction rows with
  | zero => simp
  | succ n ih =>
    rw [List.range_succ, List.flatMap_append]
    simp only [List.length_append, ih, List.flatMap_cons, List.flatMap_nil, List.append_nil,
      List.length_map, List.length_range]
    ring

theorem grid_flatMap_getElem {α : Type} (g : Nat → Nat → α) {rows cols r c : Nat}
    (hr : r < rows) (hc : c < cols) :
    ((List.range rows).flatMap fun i => (List.range cols).map (g i))[r * cols + c]? =
      some (g r c) := by
  induction rows with
  | zero => omega
  | succ n ih =>
    rw [List.range_succ, List.flatMap_append, List.getElem?_append]
    rw [grid_flatMap_length]
    rcases Nat.lt_or_ge r n with hrn | hrn
    · rw [if_pos (by nlinarith [Nat.succ_le_of_lt hc, Nat.succ_le_of_lt hrn])]
      exact ih hrn
    · have hreq : r = n := by omega
      subst hreq
      rw [if_neg (by omega)]
      have hidx : r * cols + c - r * cols = c := by omega
      rw [hidx]
      simp only [List.flatMap_cons, List.flatMap_nil, List.append_nil, List.getElem?_map,
        List.getElem?_range hc, Option.map_some']

theorem grid_flatMap_mem {α : Type} {g : Nat → Nat → α} {p : α} {rows cols : Nat} :
    (p ∈ (List.range rows).flatMap fun r => (List.range cols).map (g r)) ↔
      ∃ r, r < rows ∧ ∃ c, c < cols ∧ p = g r c := by
  simp only [List.mem_flatMap, List.mem_map, List.mem_range]
  constructor
  · rintro ⟨r, hr, c, hc, rfl⟩
    exact ⟨r, hr, c, hc, rfl⟩
  · rintro ⟨r, hr, c, hc, rfl⟩
    exact ⟨r, hr, c, hc, rfl⟩

/-! ### C1: row-major slot positions -/

/-- C1: for every page geometry, card geometry and grid spec passing the
feasibility check, `positions_grid` returns exactly `cols * rows` slots in
row-major order, top row first: the slot for row `r` and column `c` sits at
index `r * cols + c`, with `x = startX + c·(card_w + gap_x)` where
`startX = margin_left + (usableW − neededW)/2`, and lower-left `y` equal to
`startYTop − r·(card_h + gap_y) − card_h` where
`startYTop = page_h − margin_top − (usableH − neededH)/2`. -/
theorem positions_grid_rowMajor
    (page_w page_h card_w card_h : ℚ) (cols rows : Nat) (ml mr mt mb gx gy : ℚ)
    (hW : (cols : ℚ) * card_w + ((cols : ℚ) - 1) * gx ≤ (page_w - ml - mr) + 1 / 1000000)
    (hH : (rows : ℚ) * card_h + ((rows : ℚ) - 1) * gy ≤ (page_h - mt - mb) + 1 / 1000000)
    {r c : Nat} (hr : r < rows) (hc : c < cols) :
    ∃ slots, positions_grid page_w page_h card_w card_h cols rows ml mr mt mb gx gy =
        .ok slots ∧
      slots.length = cols * rows ∧
      slots[r * cols + c]? = some
        (ml + ((page_w - ml - mr) - ((cols : ℚ) * card_w + ((cols : ℚ) - 1) * gx)) / 2
            + (c : ℚ) * (card_w + gx),
         (page_h - mt - ((page_h - mt - mb) - ((rows : ℚ) * card_h + ((rows : ℚ) - 1) * gy)) / 2)
            - (r : ℚ) * (card_h + gy) - card_h) := by
  have hcond : ¬ ((cols : ℚ) * card_w + ((cols : ℚ) - 1) * gx > (page_w - ml - mr) + 1 / 1000000 ∨
      (rows : ℚ) * card_h + ((rows : ℚ) - 1) * gy > (page_h - mt - mb) + 1 / 1000000) := by
    push_neg
    exact ⟨hW, hH⟩
  refine ⟨(List.range rows).flatMap fun (i : Nat) =>
      (List.range cols).map fun (j : Nat) =>
        (ml + ((page_w - ml - mr) - ((cols : ℚ) * card_w + ((cols : ℚ) - 1) * gx)) / 2
            + (j : ℚ) * (card_w + gx),
         (page_h - mt - ((page_h - mt - mb) - ((rows : ℚ) * card_h + ((rows : ℚ) - 1) * gy)) / 2)
            - (i : ℚ) * (card_h + gy) - card_h), ?_, ?_, ?_⟩
  · unfold positions_grid
    rw [if_neg hcond]
  · rw [grid_flatMap_length]
    ring
  · exact grid_flatMap_getElem _ hr hc

/-- Concrete instance for C1: a 100×100 page, 30×40 cards in a 2×2 grid,
margins 5 and gaps 2; the slot for row 1, column 0 is at index 2. -/
theorem positions_grid_rowMajor_witness :
    ∃ slots, positions_grid 100 100 30 40 2 2 5 5 5 5 2 2 = .ok slots ∧
      slots.length = 2 * 2 ∧
      slots[1 * 2 + 0]? = some
        (5 + ((100 - 5 - 5) - (((2 : Nat) : ℚ) * 30 + (((2 : Nat) : ℚ) - 1) * 2)) / 2
            + ((0 : Nat) : ℚ) * (30 + 2),
         (100 - 5 - ((100 - 5 - 5) - (((2 : Nat) : ℚ) * 40 + (((2 : Nat) : ℚ) - 1) * 2)) / 2)
            - ((1 : Nat) : ℚ) * (40 + 2) - 40) :=
  positions_grid_rowMajor 100 100 30 40 2 2 5 5 5 5 2 2
    (by push_cast; norm_num) (by push_cast; norm_num) (by norm_num) (by norm_num)

/-! ### C3: the overflow check -/

/-- C3: `positions_grid` fails with the layout-overflow error exactly when
the needed width exceeds the usable width plus the absolute tolerance
`1e-6`, or the needed height exceeds the usable height plus that tolerance;
the error reports the needed and usable extents divided by `MM_TO_PT`
(converted to millimetres) together with the fixed remediation guidance,
and an error excludes any slot list being returned. -/
theorem positions_grid_overflow_iff
    (page_w page_h card_w card_h : ℚ) (cols rows : Nat) (ml mr mt mb gx gy : ℚ) :
    (positions_grid page_w page_h card_w card_h cols rows ml mr mt mb gx gy =
        .error
          { neededWmm := ((cols : ℚ) * card_w + ((cols : ℚ) - 1) * gx) / MM_TO_PT
            neededHmm := ((rows : ℚ) * card_h + ((rows : ℚ) - 1) * gy) / MM_TO_PT
            usableWmm := (page_w - ml - mr) / MM_TO_PT
            usableHmm := (page_h - mt - mb) / MM_TO_PT
            guidance := "Reduce margins/gaps or card size, or change grid." } ↔
      ((cols : ℚ) * card_w + ((cols : ℚ) - 1) * gx > (page_w - ml - mr) + 1 / 1000000 ∨
        (rows : ℚ) * card_h + ((rows : ℚ) - 1) * gy > (page_h - mt - mb) + 1 / 1000000)) ∧
    ∀ e slots,
      positions_grid page_w page_h card_w card_h cols rows ml mr mt mb gx gy = .error e →
      positions_grid page_w page_h card_w card_h cols rows ml mr mt mb gx gy ≠ .ok slots := by
  constructor
  · by_cases hcond :
        (cols : ℚ) * card_w + ((cols : ℚ) - 1) * gx > (page_w - ml - mr) + 1 / 1000000 ∨
        (rows : ℚ) * card_h + ((rows : ℚ) - 1) * gy > (page_h - mt - mb) + 1 / 1000000
    · refine ⟨fun _ => hcond, fun _ => ?_⟩
      unfold positions_grid
      rw [if_pos hcond]
    · constructor
      · intro h
        exfalso
        unfold positions_grid at h
        rw [if_neg hcond] at h
        exact Except.noConfusion h
      · intro h
        exact absurd h hcond
  · intro e slots he
    rw [he]
    intro hcontra
    exact Except.noConfusion hcontra

/-! ### C2: slots are pairwise disjoint and inside the usable area -/

/-- C2: for positive grid counts, positive card dimensions and nonnegative
gaps, whenever the needed extents fit the usable extents, `positions_grid`
returns exactly `cols * rows` slots whose card rectangles are pairwise
interior-disjoint and all lie inside the usable area bounded by the four
margins. -/
theorem positions_grid_disjoint_inside
    (page_w page_h card_w card_h : ℚ) (cols rows : Nat) (ml mr mt mb gx gy : ℚ)
    (hcw : 0 < card_w) (hch : 0 < card_h) (hgx : 0 ≤ gx) (hgy : 0 ≤ gy)
    (hW : (cols : ℚ) * card_w + ((cols : ℚ) - 1) * gx ≤ page_w - ml - mr)
    (hH : (rows : ℚ) * card_h + ((rows : ℚ) - 1) * gy ≤ page_h - mt - mb) :
    ∃ slots, positions_grid page_w page_h card_w card_h cols rows ml mr mt mb gx gy =
        .ok slots ∧
      slots.length = cols * rows ∧
      (∀ (i j : Nat) (p q : ℚ × ℚ), i ≠ j → slots[i]? = some p → slots[j]? = some q →
        rectDisjoint p q card_w card_h) ∧
      ∀ p ∈ slots, insideUsable p page_w page_h card_w card_h ml mr mt mb := by
  have hcond : ¬ ((cols : ℚ) * card_w + ((cols : ℚ) - 1) * gx > (page_w - ml - mr) + 1 / 1000000 ∨
      (rows : ℚ) * card_h + ((rows : ℚ) - 1) * gy > (page_h - mt - mb) + 1 / 1000000) := by
    push_neg
    constructor <;> linarith
  have hgxw : (0 : ℚ) ≤ card_w + gx := by linarith
  have hgyh : (0 : ℚ) ≤ card_h + gy := by linarith
  refine ⟨(List.range rows).flatMap fun (i : Nat) =>
      (List.range cols).map fun (j : Nat) =>
        (ml + ((page_w - ml - mr) - ((cols : ℚ) * card_w + ((cols : ℚ) - 1) * gx)) / 2
            + (j : ℚ) * (card_w + gx),
         (page_h - mt - ((page_h - mt - mb) - ((rows : ℚ) * card_h + ((rows : ℚ) - 1) * gy)) / 2)
            - (i : ℚ) * (card_h + gy) - card_h), ?_, ?_, ?_, ?_⟩
  · unfold positions_grid
    rw [if_neg hcond]
  · rw [grid_flatMap_length]
    ring
  · intro i j p q hij hp hq
    obtain ⟨hi, hpi⟩ := List.getElem?_eq_some_iff.mp hp
    obtain ⟨hj, hqj⟩ := List.getElem?_eq_some_iff.mp hq
    rw [grid_flatMap_length] at hi hj
    have hcols : 0 < cols := by
      rcases Nat.eq_zero_or_pos cols with h0 | h0
      · rw [h0, Nat.mul_zero] at hi
        omega
      · exact h0
    have hri : i / cols < rows := (Nat.div_lt_iff_lt_mul hcols).mpr (by omega)
    have hrj : j / cols < rows := (Nat.div_lt_iff_lt_mul hcols).mpr (by omega)
    have hci : i % cols < cols := Nat.mod_lt i hcols
    have hcj : j % cols < cols := Nat.mod_lt j hcols
    have hidx_i : i / cols * cols + i % cols = i := by
      rw [Nat.mul_comm]
      exact Nat.div_add_mod i cols
    have hidx_j : j / cols * cols + j % cols = j := by
      rw [Nat.mul_comm]
      exact Nat.div_add_mod j cols
    have hp2 := grid_flatMap_getElem
      (fun (i : Nat) (j : Nat) =>
        ((ml + ((page_w - ml - mr) - ((cols : ℚ) * card_w + ((cols : ℚ) - 1) * gx)) / 2
            + (j : ℚ) * (card_w + gx),
          (page_h - mt - ((page_h - mt - mb) - ((rows : ℚ) * card_h + ((rows : ℚ) - 1) * gy)) / 2)
            - (i : ℚ) * (card_h + gy) - card_h) : ℚ × ℚ)) hri hci
    have hq2 := grid_flatMap_getElem
      (fun (i : Nat) (j : Nat) =>
        ((ml + ((page_w - ml - mr) - ((cols : ℚ) * card_w + ((cols : ℚ) - 1) * gx)) / 2
            + (j : ℚ) * (card_w + gx),
          (page_h - mt - ((page_h - mt - mb) - ((rows : ℚ) * card_h + ((rows : ℚ) - 1) * gy)) / 2)
            - (i : ℚ) * (card_h + gy) - card_h) : ℚ × ℚ)) hrj hcj
    rw [hidx_i, hp] at hp2
    rw [hidx_j, hq] at hq2
    have hpv : p = _ := Option.some_injective _ hp2
    have hqv : q = _ := Option.some_injective _ hq2
    subst hpv
    subst hqv
    simp only [rectDisjoint]
    rcases Nat.lt_trichotomy (i % cols) (j % cols) with hcc | hcc | hcc
    · left
      have h1 : ((i % cols : Nat) : ℚ) + 1 ≤ ((j % cols : Nat) : ℚ) := by exact_mod_cast hcc
      linarith [mul_le_mul_of_nonneg_right h1 hgxw]
    · rcases Nat.lt_trichotomy (i / cols) (j / cols) with hlt | heq | hlt
      · right; right; right
        have h1 : ((i / cols : Nat) : ℚ) + 1 ≤ ((j / cols : Nat) : ℚ) := by exact_mod_cast hlt
        linarith [mul_le_mul_of_nonneg_right h1 hgyh]
      · exfalso
        apply hij
        rw [← hidx_i, ← hidx_j, heq, hcc]
      · right; right; left
        have h1 : ((j / cols : Nat) : ℚ) + 1 ≤ ((i / cols : Nat) : ℚ) := by exact_mod_cast hlt
        linarith [mul_le_mul_of_nonneg_right h1 hgyh]
    · right; left
      have h1 : ((j % cols : Nat) : ℚ) + 1 ≤ ((i % cols : Nat) : ℚ) := by exact_mod_cast hcc
      linarith [mul_le_mul_of_nonneg_right h1 hgxw]
  · intro p hp
    rw [grid_flatMap_mem] at hp
    obtain ⟨r, hr, c, hc, rfl⟩ := hp
    simp only [insideUsable]
    have hc1 : (c : ℚ) ≤ (cols : ℚ) - 1 := by
      have : ((c + 1 : Nat) : ℚ) ≤ ((cols : Nat) : ℚ) := by exact_mod_cast Nat.succ_le_of_lt hc
      push_cast at this
      linarith
    have hr1 : (r : ℚ) ≤ (rows : ℚ) - 1 := by
      have : ((r + 1 : Nat) : ℚ) ≤ ((rows : Nat) : ℚ) := by exact_mod_cast Nat.succ_le_of_lt hr
      push_cast at this
      linarith
    have hcn : (0 : ℚ) ≤ (c : ℚ) := Nat.cast_nonneg c
    have hrn : (0 : ℚ) ≤ (r : ℚ) := Nat.cast_nonneg r
    refine ⟨?_, ?_, ?_, ?_⟩
    · linarith [mul_nonneg hcn hgxw]
    · linarith [mul_le_mul_of_nonneg_right hc1 hgxw]
    · linarith [mul_le_mul_of_nonneg_right hr1 hgyh]
    · linarith [mul_nonneg hrn hgyh]

/-- Concrete instance for C2, on the 2×2 layout of the C1 instance. -/
theorem positions_grid_disjoint_inside_witness :
    ∃ slots, positions_grid 100 100 30 40 2 2 5 5 5 5 2 2 = .ok slots ∧
      slots.length = 2 * 2 ∧
      (∀ (i j : Nat) (p q : ℚ × ℚ), i ≠ j → slots[i]? = some p → slots[j]? = some q →
        rectDisjoint p q 30 40) ∧
      ∀ p ∈ slots, insideUsable p 100 100 30 40 5 5 5 5 :=
  positions_grid_disjoint_inside 100 100 30 40 2 2 5 5 5 5 2 2
    (by norm_num) (by norm_num) (by norm_num) (by norm_num)
    (by push_cast; norm_num) (by push_cast; norm_num)

/-! ### C4: the slot block is centered in the usable area -/

/-- C4: for every feasible input (positive grid counts, positive card
dimensions, nonnegative gaps, needed extents within usable extents), the
bounding box of the returned slots is centered in the usable area on both
axes: the leftover on the left of the box equals the leftover on its right,
and the leftover below equals the leftover above — here exactly, hence in
particular within the floating tolerance. -/
theorem positions_grid_centered
    (page_w page_h card_w card_h : ℚ) (cols rows : Nat) (ml mr mt mb gx gy : ℚ)
    (hcols : 0 < cols) (hrows : 0 < rows)
    (hcw : 0 < card_w) (hch : 0 < card_h) (hgx : 0 ≤ gx) (hgy : 0 ≤ gy)
    (hW : (cols : ℚ) * card_w + ((cols : ℚ) - 1) * gx ≤ page_w - ml - mr)
    (hH : (rows : ℚ) * card_h + ((rows : ℚ) - 1) * gy ≤ page_h - mt - mb) :
    ∃ slots, positions_grid page_w page_h card_w card_h cols rows ml mr mt mb gx gy =
        .ok slots ∧
      (slots.map Prod.fst).min? =
        some (ml + ((page_w - ml - mr) - ((cols : ℚ) * card_w + ((cols : ℚ) - 1) * gx)) / 2) ∧
      (slots.map fun p => p.1 + card_w).max? =
        some (ml + ((page_w - ml - mr) - ((cols : ℚ) * card_w + ((cols : ℚ) - 1) * gx)) / 2
          + ((cols : ℚ) * card_w + ((cols : ℚ) - 1) * gx)) ∧
      (slots.map Prod.snd).min? =
        some ((page_h - mt
            - ((page_h - mt - mb) - ((rows : ℚ) * card_h + ((rows : ℚ) - 1) * gy)) / 2)
          - ((rows : ℚ) * card_h + ((rows : ℚ) - 1) * gy)) ∧
      (slots.map fun p => p.2 + card_h).max? =
        some (page_h - mt
          - ((page_h - mt - mb) - ((rows : ℚ) * card_h + ((rows : ℚ) - 1) * gy)) / 2) ∧
      ((ml + ((page_w - ml - mr) - ((cols : ℚ) * card_w + ((cols : ℚ) - 1) * gx)) / 2) - ml =
        (page_w - mr)
          - (ml + ((page_w - ml - mr) - ((cols : ℚ) * card_w + ((cols : ℚ) - 1) * gx)) / 2
            + ((cols : ℚ) * card_w + ((cols : ℚ) - 1) * gx))) ∧
      (((page_h - mt
            - ((page_h - mt - mb) - ((rows : ℚ) * card_h + ((rows : ℚ) - 1) * gy)) / 2)
          - ((rows : ℚ) * card_h + ((rows : ℚ) - 1) * gy)) - mb =
        (page_h - mt)
          - (page_h - mt
            - ((page_h - mt - mb) - ((rows : ℚ) * card_h + ((rows : ℚ) - 1) * gy)) / 2)) := by
  haveI : Std.Antisymm (fun (a b : ℚ) => a ≤ b) := ⟨le_antisymm⟩
  have hcond : ¬ ((cols : ℚ) * card_w + ((cols : ℚ) - 1) * gx > (page_w - ml - mr) + 1 / 1000000 ∨
      (rows : ℚ) * card_h + ((rows : ℚ) - 1) * gy > (page_h - mt - mb) + 1 / 1000000) := by
    push_neg
    constructor <;> linarith
  have hgxw : (0 : ℚ) ≤ card_w + gx := by linarith
  have hgyh : (0 : ℚ) ≤ card_h + gy := by linarith
  have hcolsQ : ((cols - 1 : Nat) : ℚ) = (cols : ℚ) - 1 := Nat.cast_sub hcols
  have hrowsQ : ((rows - 1 : Nat) : ℚ) = (rows : ℚ) - 1 := Nat.cast_sub hrows
  refine ⟨(List.range rows).flatMap fun (i : Nat) =>
      (List.range cols).map fun (j : Nat) =>
        (ml + ((page_w - ml - mr) - ((cols : ℚ) * card_w + ((cols : ℚ) - 1) * gx)) / 2
            + (j : ℚ) * (card_w + gx),
         (page_h - mt - ((page_h - mt - mb) - ((rows : ℚ) * card_h + ((rows : ℚ) - 1) * gy)) / 2)
            - (i : ℚ) * (card_h + gy) - card_h), ?_, ?_, ?_, ?_, ?_, by ring, by ring⟩
  · unfold positions_grid
    rw [if_neg hcond]
  · have hfst : (((List.range rows).flatMap fun (i : Nat) =>
        (List.range cols).map fun (j : Nat) =>
          ((ml + ((page_w - ml - mr) - ((cols : ℚ) * card_w + ((cols : ℚ) - 1) * gx)) / 2
              + (j : ℚ) * (card_w + gx),
            (page_h - mt
              - ((page_h - mt - mb) - ((rows : ℚ) * card_h + ((rows : ℚ) - 1) * gy)) / 2)
              - (i : ℚ) * (card_h + gy) - card_h) : ℚ × ℚ)).map Prod.fst) =
      (List.range rows).flatMap fun (_ : Nat) =>
        (List.range cols).map fun (j : Nat) =>
          ml + ((page_w - ml - mr) - ((cols : ℚ) * card_w + ((cols : ℚ) - 1) * gx)) / 2
            + (j : ℚ) * (card_w + gx) := by
      rw [List.map_flatMap]
      simp only [List.map_map]
      rfl
    rw [hfst]
    rw [List.min?_eq_some_iff (fun a => le_refl a) min_choice (fun a b c => le_min_iff)]
    constructor
    · rw [grid_flatMap_mem]
      exact ⟨0, hrows, 0, hcols, by push_cast; ring⟩
    · intro b hb
      rw [grid_flatMap_mem] at hb
      obtain ⟨r, hr, c, hc, rfl⟩ := hb
      linarith [mul_nonneg (Nat.cast_nonneg c : (0 : ℚ) ≤ (c : ℚ)) hgxw]
  · have hfstw : (((List.range rows).flatMap fun (i : Nat) =>
        (List.range cols).map fun (j : Nat) =>
          ((ml + ((page_w - ml - mr) - ((cols : ℚ) * card_w + ((cols : ℚ) - 1) * gx)) / 2
              + (j : ℚ) * (card_w + gx),
            (page_h - mt
              - ((page_h - mt - mb) - ((rows : ℚ) * card_h + ((rows : ℚ) - 1) * gy)) / 2)
              - (i : ℚ) * (card_h + gy) - card_h) : ℚ × ℚ)).map fun p => p.1 + card_w) =
      (List.range rows).flatMap fun (_ : Nat) =>
        (List.range cols).map fun (j : Nat) =>
          ml + ((page_w - ml - mr) - ((cols : ℚ) * card_w + ((cols : ℚ) - 1) * gx)) / 2
            + (j : ℚ) * (card_w + gx) + card_w := by
      rw [List.map_flatMap]
      simp only [List.map_map]
      rfl
    rw [hfstw]
    rw [List.max?_eq_some_iff (fun a => le_refl a) max_choice (fun a b c => max_le_iff)]
    constructor
    · rw [grid_flatMap_mem]
      refine ⟨0, hrows, cols - 1, by omega, ?_⟩
      rw [hcolsQ]
      ring
    · intro b hb
      rw [grid_flatMap_mem] at hb
      obtain ⟨r, hr, c, hc, rfl⟩ := hb
      have hc1 : (c : ℚ) ≤ (cols : ℚ) - 1 := by
        have : ((c + 1 : Nat) : ℚ) ≤ ((cols : Nat) : ℚ) := by exact_mod_cast Nat.succ_le_of_lt hc
        push_cast at this
        linarith
      linarith [mul_le_mul_of_nonneg_right hc1 hgxw]
  · have hsnd : (((List.range rows).flatMap fun (i : Nat) =>
        (List.range cols).map fun (j : Nat) =>
          ((ml + ((page_w - ml - mr) - ((cols : ℚ) * card_w + ((cols : ℚ) - 1) * gx)) / 2
              + (j : ℚ) * (card_w + gx),
            (page_h - mt
              - ((page_h - mt - mb) - ((rows : ℚ) * card_h + ((rows : ℚ) - 1) * gy)) / 2)
              - (i : ℚ) * (card_h + gy) - card_h) : ℚ × ℚ)).map Prod.snd) =
      (List.range rows).flatMap fun (i : Nat) =>
        (List.range cols).map fun (_ : Nat) =>
          (page_h - mt - ((page_h - mt - mb) - ((rows : ℚ) * card_h + ((rows : ℚ) - 1) * gy)) / 2)
            - (i : ℚ) * (card_h + gy) - card_h := by
      rw [List.map_flatMap]
      simp only [List.map_map]
      rfl
    rw [hsnd]
    rw [List.min?_eq_some_iff (fun a => le_refl a) min_choice (fun a b c => le_min_iff)]
    constructor
    · rw [grid_flatMap_mem]
      refine ⟨rows - 1, by omega, 0, hcols, ?_⟩
      rw [hrowsQ]
      ring
    · intro b hb
      rw [grid_flatMap_mem] at hb
      obtain ⟨r, hr, c, hc, rfl⟩ := hb
      have hr1 : (r : ℚ) ≤ (rows : ℚ) - 1 := by
        have : ((r + 1 : Nat) : ℚ) ≤ ((rows : Nat) : ℚ) := by exact_mod_cast Nat.succ_le_of_lt hr
        push_cast at this
        linarith
      linarith [mul_le_mul_of_nonneg_right hr1 hgyh]
  · have hsndh : (((List.range rows).flatMap fun (i : Nat) =>
        (List.range cols).map fun (j : Nat) =>
          ((ml + ((page_w - ml - mr) - ((cols : ℚ) * card_w + ((cols : ℚ) - 1) * gx)) / 2
              + (j : ℚ) * (card_w + gx),
            (page_h - mt
              - ((page_h - mt - mb) - ((rows : ℚ) * card_h + ((rows : ℚ) - 1) * gy)) / 2)
              - (i : ℚ) * (card_h + gy) - card_h) : ℚ × ℚ)).map fun p => p.2 + card_h) =
      (List.range rows).flatMap fun (i : Nat) =>
        (List.range cols).map fun (_ : Nat) =>
          (page_h - mt - ((page_h - mt - mb) - ((rows : ℚ) * card_h + ((rows : ℚ) - 1) * gy)) / 2)
            - (i : ℚ) * (card_h + gy) - card_h + card_h := by
      rw [List.map_flatMap]
      simp only [List.map_map]
      rfl
    rw [hsndh]
    rw [List.max?_eq_some_iff (fun a => le_refl a) max_choice (fun a b c => max_le_iff)]
    constructor
    · rw [grid_flatMap_mem]
      exact ⟨0, hrows, 0, hcols, by push_cast; ring⟩
    · intro b hb
      rw [grid_flatMap_mem] at hb
      obtain ⟨r, hr, c, hc, rfl⟩ := hb
      linarith [mul_nonneg (Nat.cast_nonneg r : (0 : ℚ) ≤ (r : ℚ)) hgyh]

/-- Concrete instance for C4, on the 2×2 layout of the C1 instance. -/
theorem positions_grid_centered_witness :
    ∃ slots, positions_grid 100 100 30 40 2 2 5 5 5 5 2 2 = .ok slots ∧
      (slots.map Prod.fst).min? =
        some (5 + ((100 - 5 - 5) - (((2 : Nat) : ℚ) * 30 + (((2 : Nat) : ℚ) - 1) * 2)) / 2) ∧
      (slots.map fun p => p.1 + 30).max? =
        some (5 + ((100 - 5 - 5) - (((2 : Nat) : ℚ) * 30 + (((2 : Nat) : ℚ) - 1) * 2)) / 2
          + (((2 : Nat) : ℚ) * 30 + (((2 : Nat) : ℚ) - 1) * 2)) ∧
      (slots.map Prod.snd).min? =
        some ((100 - 5 - ((100 - 5 - 5) - (((2 : Nat) : ℚ) * 40 + (((2 : Nat) : ℚ) - 1) * 2)) / 2)
          - (((2 : Nat) : ℚ) * 40 + (((2 : Nat) : ℚ) - 1) * 2)) ∧
      (slots.map fun p => p.2 + 40).max? =
        some (100 - 5 - ((100 - 5 - 5) - (((2 : Nat) : ℚ) * 40 + (((2 : Nat) : ℚ) - 1) * 2)) / 2) ∧
      ((5 + ((100 - 5 - 5) - (((2 : Nat) : ℚ) * 30 + (((2 : Nat) : ℚ) - 1) * 2)) / 2) - 5 =
        (100 - 5)
          - (5 + ((100 - 5 - 5) - (((2 : Nat) : ℚ) * 30 + (((2 : Nat) : ℚ) - 1) * 2)) / 2
            + (((2 : Nat) : ℚ) * 30 + (((2 : Nat) : ℚ) - 1) * 2))) ∧
      (((100 - 5 - ((100 - 5 - 5) - (((2 : Nat) : ℚ) * 40 + (((2 : Nat) : ℚ) - 1) * 2)) / 2)
          - (((2 : Nat) : ℚ) * 40 + (((2 : Nat) : ℚ) - 1) * 2)) - 5 =
        (100 - 5)
          - (100 - 5 - ((100 - 5 - 5) - (((2 : Nat) : ℚ) * 40 + (((2 : Nat) : ℚ) - 1) * 2)) / 2)) :=
  positions_grid_centered 100 100 30 40 2 2 5 5 5 5 2 2
    (by norm_num) (by norm_num) (by norm_num) (by norm_num) (by norm_num) (by norm_num)
    (by push_cast; norm_num) (by push_cast; norm_num)

/-- Concrete instance for C3: a 20-wide card cannot fit a 10-wide page, and
the error carries the millimetre-converted extents. -/
theorem positions_grid_overflow_iff_witness :
    positions_grid 10 10 20 10 1 1 0 0 0 0 0 0 =
      .error
        { neededWmm := (((1 : Nat) : ℚ) * 20 + (((1 : Nat) : ℚ) - 1) * 0) / MM_TO_PT
          neededHmm := (((1 : Nat) : ℚ) * 10 + (((1 : Nat) : ℚ) - 1) * 0) / MM_TO_PT
          usableWmm := ((10 : ℚ) - 0 - 0) / MM_TO_PT
          usableHmm := ((10 : ℚ) - 0 - 0) / MM_TO_PT
          guidance := "Reduce margins/gaps or card size, or change grid." } :=
  (positions_grid_overflow_iff 10 10 20 10 1 1 0 0 0 0 0 0).1.mpr
    (by push_cast; norm_num)

/-! ### C9: fit-and-letterbox placement -/

/-- C9: for positive slot and image dimensions, `draw_image_fit` scales the
image by `min(w/iw, h/ih)`; the displayed rectangle is `iw·scale × ih·scale`,
never exceeds the slot, at least one displayed dimension equals the
corresponding slot dimension, and the rectangle is centered: the letterbox
gaps on the two opposite sides of each axis are equal. -/
theorem draw_image_fit_spec (x y w h : ℚ) (iw ih : Nat)
    (hiw : 0 < iw) (hih : 0 < ih) (hw : 0 < w) (hh : 0 < h) :
    ∃ dx dy dw dh, draw_image_fit x y w h iw ih = (dx, dy, dw, dh) ∧
      dw = (iw : ℚ) * min (w / (iw : ℚ)) (h / (ih : ℚ)) ∧
      dh = (ih : ℚ) * min (w / (iw : ℚ)) (h / (ih : ℚ)) ∧
      dw ≤ w ∧ dh ≤ h ∧ (dw = w ∨ dh = h) ∧
      dx - x = (x + w) - (dx + dw) ∧ dy - y = (y + h) - (dy + dh) := by
  have hiwQ : (0 : ℚ) < (iw : ℚ) := by exact_mod_cast hiw
  have hihQ : (0 : ℚ) < (ih : ℚ) := by exact_mod_cast hih
  have h1 : (iw : ℚ) * (w / (iw : ℚ)) = w := by field_simp
  have h2 : (ih : ℚ) * (h / (ih : ℚ)) = h := by field_simp
  have hmin1 : min (w / (iw : ℚ)) (h / (ih : ℚ)) ≤ w / (iw : ℚ) := min_le_left _ _
  have hmin2 : min (w / (iw : ℚ)) (h / (ih : ℚ)) ≤ h / (ih : ℚ) := min_le_right _ _
  refine ⟨_, _, _, _, rfl, rfl, rfl, ?_, ?_, ?_, by ring, by ring⟩
  · linarith [mul_le_mul_of_nonneg_left hmin1 hiwQ.le]
  · linarith [mul_le_mul_of_nonneg_left hmin2 hihQ.le]
  · rcases min_choice (w / (iw : ℚ)) (h / (ih : ℚ)) with hm | hm
    · left
      rw [hm, h1]
    · right
      rw [hm, h2]

/-- Concrete instance for C9: a 4×3 image in a 2×3 slot scales to width 2;
the vertical gaps are equal. -/
theorem draw_image_fit_spec_witness :
    0 < 4 ∧ 0 < 3 ∧ (0 : ℚ) < 2 ∧ (0 : ℚ) < 3 ∧
    ∃ dx dy dw dh, draw_image_fit 0 0 2 3 4 3 = (dx, dy, dw, dh) ∧
      dw = ((4 : Nat) : ℚ) * min (2 / ((4 : Nat) : ℚ)) (3 / ((3 : Nat) : ℚ)) ∧
      dh = ((3 : Nat) : ℚ) * min (2 / ((4 : Nat) : ℚ)) (3 / ((3 : Nat) : ℚ)) ∧
      dw ≤ 2 ∧ dh ≤ 3 ∧ (dw = 2 ∨ dh = 3) ∧
      dx - 0 = (0 + 2) - (dx + dw) ∧ dy - 0 = (0 + 3) - (dy + dh) :=
  ⟨by norm_num, by norm_num, by norm_num, by norm_num,
    draw_image_fit_spec 0 0 2 3 4 3 (by norm_num) (by norm_num) (by norm_num) (by norm_num)⟩

/-! ### Helper lemmas for the pagination loop -/

theorem splitBatches_cons {α : Type} (perPage : Nat) (hpp : 0 < perPage) (x : α) (xs : List α) :
    splitBatches perPage (x :: xs) =
      (x :: xs).take perPage :: splitBatches perPage ((x :: xs).drop perPage) := by
  have h : (x :: xs).drop perPage = xs.drop (perPage - 1) := by
    cases perPage with
    | zero => omega
    | succ k => simp [List.drop_succ_cons]
  rw [h]
  simp only [splitBatches]

/-- `splitBatches` produces exactly the Python slices
`pairs[k*perPage : k*perPage + perPage]` for `k < ceil(len / perPage)`. -/
theorem splitBatches_eq_ranges {α : Type} (perPage : Nat) (hpp : 0 < perPage) :
    ∀ (n : Nat) (l : List α), l.length ≤ n →
      splitBatches perPage l =
        (List.range ((l.length + perPage - 1) / perPage)).map
          fun k => (l.drop (k * perPage)).take perPage := by
  intro n
  induction n with
  | zero =>
    intro l hl
    have hnil : l = [] := List.eq_nil_of_length_eq_zero (by omega)
    subst hnil
    simp only [splitBatches, List.length_nil, Nat.zero_add]
    rw [Nat.div_eq_of_lt (by omega)]
    simp
  | succ n ih =>
    intro l hl
    cases l with
    | nil =>
      simp only [splitBatches, List.length_nil, Nat.zero_add]
      rw [Nat.div_eq_of_lt (by omega)]
      simp
    | cons x xs =>
      rw [splitBatches_cons perPage hpp]
      rw [ih ((x :: xs).drop perPage) (by
        simp only [List.length_drop, List.length_cons]
        simp only [List.length_cons] at hl
        omega)]
      have hlen : ((x :: xs).drop perPage).length = (x :: xs).length - perPage := by simp
      rw [hlen]
      have hB : ((x :: xs).length + perPage - 1) / perPage =
          (((x :: xs).length - perPage) + perPage - 1) / perPage + 1 := by
        have hL1 : 1 ≤ (x :: xs).length := by simp
        rcases le_or_lt perPage (x :: xs).length with hc | hc
        · have e1 : (x :: xs).length + perPage - 1 =
              ((x :: xs).length - perPage) + perPage - 1 + perPage := by omega
          rw [e1, Nat.add_div_right _ hpp]
        · have e1 : (x :: xs).length - perPage = 0 := by omega
          have e2 : (x :: xs).length + perPage - 1 = ((x :: xs).length - 1) + perPage := by omega
          rw [e1, e2, Nat.add_div_right _ hpp]
          rw [Nat.div_eq_of_lt (by omega), Nat.div_eq_of_lt (by omega)]
      rw [hB, List.range_succ_eq_map, List.map_cons, List.map_map]
      congr 1
      · simp
      · congr 1
        funext k
        simp only [Function.comp_apply]
        rw [List.drop_drop, Nat.succ_mul, Nat.add_comm (k * perPage) perPage]

theorem flatMap_pairList_length {β γ : Type} (l : List β) (f g : β → γ) :
    (l.flatMap fun b => [f b, g b]).length = 2 * l.length := by
  induction l with
  | nil => simp
  | cons b t ih =>
    simp only [List.flatMap_cons, List.length_append, ih, List.length_cons, List.length_nil]
    omega

theorem flatMap_pairList_getElem_even {β γ : Type} (l : List β) (f g : β → γ) (k : Nat) :
    (l.flatMap fun b => [f b, g b])[2 * k]? = l[k]?.map f := by
  induction l generalizing k with
  | nil => simp
  | cons b t ih =>
    cases k with
    | zero => simp
    | succ m =>
      have h2 : 2 * (m + 1) = 2 * m + 1 + 1 := by omega
      simp only [List.flatMap_cons, List.cons_append, List.nil_append, h2,
        List.getElem?_cons_succ, ih]

theorem flatMap_pairList_getElem_odd {β γ : Type} (l : List β) (f g : β → γ) (k : Nat) :
    (l.flatMap fun b => [f b, g b])[2 * k + 1]? = l[k]?.map g := by
  induction l generalizing k with
  | nil => simp
  | cons b t ih =>
    cases k with
    | zero => simp
    | succ m =>
      have h2 : 2 * (m + 1) + 1 = 2 * m + 1 + 1 + 1 := by omega
      simp only [List.flatMap_cons, List.cons_append, List.nil_append, h2,
        List.getElem?_cons_succ, ih]

/-! ### C5: page emission -/

/-- C5: with a positive `perPage` and exactly `perPage` slots, `renderPages`
splits the pairs into consecutive batches of at most `perPage` (every batch
except possibly the last is full), emits exactly `2·⌈total/perPage⌉` pages
alternating front-batch then back-batch, draws batch element `i` at slot `i`
on both the front and the back page of its batch (no mirroring), and, when
cut marks are enabled, marks exactly the first `len(batch)` slots on each of
the two pages. -/
theorem renderPages_claim {α : Type} (pairs : List (α × α)) (slots : List (ℚ × ℚ))
    (perPage : Nat) (cm : Bool) (hpp : 0 < perPage) (hsl : slots.length = perPage) :
    (renderPages pairs slots perPage cm).length =
        2 * ((pairs.length + perPage - 1) / perPage) ∧
    ∀ k, k < (pairs.length + perPage - 1) / perPage →
      ((pairs.drop (k * perPage)).take perPage).length ≤ perPage ∧
      (k + 1 < (pairs.length + perPage - 1) / perPage →
        ((pairs.drop (k * perPage)).take perPage).length = perPage) ∧
      (renderPages pairs slots perPage cm)[2 * k]? = some
        { draws := (((pairs.drop (k * perPage)).take perPage).map Prod.fst).zip slots
          marks := if cm then slots.take ((pairs.drop (k * perPage)).take perPage).length
            else [] } ∧
      (renderPages pairs slots perPage cm)[2 * k + 1]? = some
        { draws := (((pairs.drop (k * perPage)).take perPage).map Prod.snd).zip slots
          marks := if cm then slots.take ((pairs.drop (k * perPage)).take perPage).length
            else [] } ∧
      ∀ i, i < ((pairs.drop (k * perPage)).take perPage).length →
        ∃ pr s, ((pairs.drop (k * perPage)).take perPage)[i]? = some pr ∧
          slots[i]? = some s ∧
          ((((pairs.drop (k * perPage)).take perPage).map Prod.fst).zip slots)[i]? =
            some (pr.1, s) ∧
          ((((pairs.drop (k * perPage)).take perPage).map Prod.snd).zip slots)[i]? =
            some (pr.2, s) := by
  have hsplit := splitBatches_eq_ranges perPage hpp pairs.length pairs (le_refl _)
  unfold renderPages
  rw [hsplit]
  constructor
  · rw [flatMap_pairList_length]
    simp
  · intro k hk
    refine ⟨?_, ?_, ?_, ?_, ?_⟩
    · rw [List.length_take]
      exact min_le_left _ _
    · intro hk1
      have hx : (k + 2) * perPage ≤ pairs.length + perPage - 1 :=
        (Nat.le_div_iff_mul_le hpp).mp (by omega)
      have hx2 : k * perPage + 2 * perPage ≤ pairs.length + perPage - 1 := by
        calc k * perPage + 2 * perPage = (k + 2) * perPage := by ring
          _ ≤ pairs.length + perPage - 1 := hx
      rw [List.length_take, List.length_drop]
      refine min_eq_left ?_
      generalize hA : k * perPage = A at hx2 ⊢
      omega
    · rw [flatMap_pairList_getElem_even, List.getElem?_map, List.getElem?_range hk]
      rfl
    · rw [flatMap_pairList_getElem_odd, List.getElem?_map, List.getElem?_range hk]
      rfl
    · intro i hi
      have hi_slots : i < slots.length := by
        rw [List.length_take] at hi
        omega
      refine ⟨((pairs.drop (k * perPage)).take perPage).get ⟨i, hi⟩, slots.get ⟨i, hi_slots⟩,
        ?_, ?_, ?_, ?_⟩
      · rw [List.get_eq_getElem]
        exact List.getElem?_eq_getElem hi
      · rw [List.get_eq_getElem]
        exact List.getElem?_eq_getElem hi_slots
      · have hzlen : i < ((((pairs.drop (k * perPage)).take perPage).map Prod.fst).zip
            slots).length := by
          rw [List.length_zip, List.length_map]
          exact lt_min hi hi_slots
        rw [List.getElem?_eq_getElem hzlen, List.getElem_zip, List.getElem_map]
        simp
      · have hzlen : i < ((((pairs.drop (k * perPage)).take perPage).map Prod.snd).zip
            slots).length := by
          rw [List.length_zip, List.length_map]
          exact lt_min hi hi_slots
        rw [List.getElem?_eq_getElem hzlen, List.getElem_zip, List.getElem_map]
        simp

/-- Concrete instance for C5: three pairs at two per page give four pages. -/
theorem renderPages_claim_witness :
    0 < 2 ∧ ([((0 : ℚ), (0 : ℚ)), (1, 1)] : List (ℚ × ℚ)).length = 2 ∧
    (renderPages [((1 : Nat), 2), (3, 4), (5, 6)] [((0 : ℚ), 0), (1, 1)] 2 true).length = 4 :=
  ⟨by norm_num, by norm_num, by
    have h := (renderPages_claim [((1 : Nat), 2), (3, 4), (5, 6)] [((0 : ℚ), 0), (1, 1)] 2 true
      (by norm_num) (by norm_num)).1
    simpa using h⟩

/-! ### Helper lemmas for by-name matching -/

/-- The dict lookup returns the last back in `backs` whose stem is `s`. -/
theorem back_map_eq_getLast (backs : List Name) (s : Name) :
    back_map backs s = (backs.filter fun b => pathStem b == s).getLast? := by
  induction backs using List.reverseRecOn with
  | nil => rfl
  | append_singleton l a ih =>
    unfold back_map at ih ⊢
    rw [List.foldl_append]
    simp only [List.foldl_cons, List.foldl_nil]
    by_cases h : s = pathStem a
    · rw [if_pos h, List.filter_append]
      have hfa : (List.filter (fun b => pathStem b == s) [a]) = [a] := by
        simp [h]
      rw [hfa, List.getLast?_concat]
    · rw [if_neg h, List.filter_append]
      have hfa : (List.filter (fun b => pathStem b == s) [a]) = [] := by
        simp only [List.filter_cons, List.filter_nil]
        rw [if_neg]
        simp only [beq_iff_eq]
        exact fun hc => h hc.symm
      rw [hfa, List.append_nil, ih]

/-- The `missing` accumulator of the by-name loop collects exactly the
fronts whose stem has no entry in the map, in order. -/
theorem collectPairs_missing (bm : Name → Option Name) (fronts : List Name) :
    (collectPairs bm fronts).2 = fronts.filter fun f => (bm (pathStem f)).isNone := by
  induction fronts with
  | nil => rfl
  | cons f fs ih =>
    simp only [collectPairs]
    cases hbm : bm (pathStem f) with
    | none => simp [hbm, ih, List.filter_cons]
    | some b => simp [hbm, ih, List.filter_cons]

/-- When every front's stem is in the map, the by-name loop pairs front `i`
with the map's entry for its stem, in the fronts' order. -/
theorem collectPairs_ok (bm : Name → Option Name) :
    ∀ fronts : List Name, (∀ f ∈ fronts, (bm (pathStem f)).isSome) →
      (collectPairs bm fronts).1.length = fronts.length ∧
      ∀ i, i < fronts.length →
        ∃ f b, fronts[i]? = some f ∧ (collectPairs bm fronts).1[i]? = some (f, b) ∧
          bm (pathStem f) = some b := by
  intro fronts
  induction fronts with
  | nil =>
    intro h
    exact ⟨rfl, fun i hi => by simp at hi⟩
  | cons f fs ih =>
    intro h
    have hf : (bm (pathStem f)).isSome := h f (List.mem_cons_self f fs)
    obtain ⟨b, hb⟩ := Option.isSome_iff_exists.mp hf
    have ihr := ih fun g hg => h g (List.mem_cons_of_mem f hg)
    constructor
    · simp [collectPairs, hb, ihr.1]
    · intro i hi
      cases i with
      | zero =>
        refine ⟨f, b, by simp, ?_, hb⟩
        simp [collectPairs, hb]
      | succ n =>
        obtain ⟨f', b', h1, h2, h3⟩ := ihr.2 n (by simpa using hi)
        refine ⟨f', b', by simpa using h1, ?_, h3⟩
        simp only [collectPairs, hb, List.getElem?_cons_succ]
        exact h2

/-- Core of the by-name success case: with every front matched somewhere,
`match_pairs` succeeds and pairs front `i` with the LAST back of its stem. -/
theorem match_pairs_by_name_ok_core (fronts backs : List Name)
    (h : ∀ f ∈ fronts, ∃ b ∈ backs, pathStem b = pathStem f) :
    ∃ l, match_pairs fronts backs .by_name = .ok l ∧ l.length = fronts.length ∧
      ∀ i, i < fronts.length →
        ∃ f b, l[i]? = some (f, b) ∧ fronts[i]? = some f ∧
          (backs.filter fun x => pathStem x == pathStem f).getLast? = some b := by
  have hsome : ∀ f ∈ fronts, ((back_map backs) (pathStem f)).isSome := by
    intro f hf
    obtain ⟨b, hbmem, hbstem⟩ := h f hf
    rw [back_map_eq_getLast, List.getLast?_isSome]
    intro hnil
    rw [List.filter_eq_nil_iff] at hnil
    exact hnil b hbmem (by simp [hbstem])
  have hmiss : (collectPairs (back_map backs) fronts).2 = [] := by
    rw [collectPairs_missing, List.filter_eq_nil_iff]
    intro f hf
    obtain ⟨b, hb⟩ := Option.isSome_iff_exists.mp (hsome f hf)
    simp [hb]
  obtain ⟨hlen, hidx⟩ := collectPairs_ok (back_map backs) fronts hsome
  refine ⟨(collectPairs (back_map backs) fronts).1, ?_, hlen, ?_⟩
  · simp only [match_pairs]
    rw [if_pos hmiss]
  · intro i hi
    obtain ⟨f, b, h1, h2, h3⟩ := hidx i hi
    rw [back_map_eq_getLast] at h3
    exact ⟨f, b, h2, h1, h3⟩

/-! ### C6: by-name matching -/

/-- C6: in by-name mode, when every front has a same-stem back, the result
pairs front `i` with a back of identical stem, in the fronts' order; when
one or more fronts lack a same-stem back, the whole call fails with
`MissingBackImages` listing exactly the missing fronts' file names (all of
them, in order), and no pair list is returned. -/
theorem match_pairs_by_name_claim (fronts backs : List Name) :
    ((∀ f ∈ fronts, ∃ b ∈ backs, pathStem b = pathStem f) →
      ∃ l, match_pairs fronts backs .by_name = .ok l ∧ l.length = fronts.length ∧
        ∀ i, i < fronts.length →
          ∃ p : Name × Name, l[i]? = some p ∧ fronts[i]? = some p.1 ∧ p.2 ∈ backs ∧
            pathStem p.2 = pathStem p.1) ∧
    ((∃ f ∈ fronts, ∀ b ∈ backs, pathStem b ≠ pathStem f) →
      match_pairs fronts backs .by_name =
        .error (.missingBacks
          (fronts.filter fun f => !(backs.any fun b => pathStem b == pathStem f)))) := by
  constructor
  · intro hall
    obtain ⟨l, hok, hlen, hidx⟩ := match_pairs_by_name_ok_core fronts backs hall
    refine ⟨l, hok, hlen, ?_⟩
    intro i hi
    obtain ⟨f, b, h1, h2, h3⟩ := hidx i hi
    obtain ⟨ys, hys⟩ := List.getLast?_eq_some_iff.mp h3
    have hbmem : b ∈ (backs.filter fun x => pathStem x == pathStem f) := by
      rw [hys]
      simp
    refine ⟨(f, b), h1, h2, (List.mem_filter.mp hbmem).1, ?_⟩
    have := (List.mem_filter.mp hbmem).2
    simpa using this
  · rintro ⟨f, hf, hnone⟩
    have hmiss_ne : (collectPairs (back_map backs) fronts).2 ≠ [] := by
      rw [collectPairs_missing]
      intro hnil
      rw [List.filter_eq_nil_iff] at hnil
      apply hnil f hf
      rw [back_map_eq_getLast]
      have hfe : (backs.filter fun b => pathStem b == pathStem f) = [] := by
        rw [List.filter_eq_nil_iff]
        intro b hb
        simp only [beq_iff_eq]
        exact hnone b hb
      rw [hfe]
      rfl
    simp only [match_pairs]
    rw [if_neg hmiss_ne]
    congr 1
    congr 1
    rw [collectPairs_missing]
    apply List.filter_congr
    intro g hg
    rw [back_map_eq_getLast]
    by_cases hany : (backs.any fun b => pathStem b == pathStem g) = true
    · rw [hany]
      obtain ⟨b, hbmem, hbeq⟩ := List.any_eq_true.mp hany
      have hne : (backs.filter fun b => pathStem b == pathStem g) ≠ [] := by
        intro hnil
        rw [List.filter_eq_nil_iff] at hnil
        exact hnil b hbmem hbeq
      obtain ⟨v, hv⟩ := Option.isSome_iff_exists.mp (List.getLast?_isSome.mpr hne)
      rw [hv]
      rfl
    · have hfb : (backs.any fun b => pathStem b == pathStem g) = false :=
        Bool.not_eq_true _ |>.mp hany
      rw [hfb]
      have hfe : (backs.filter fun b => pathStem b == pathStem g) = [] := by
        rw [List.filter_eq_nil_iff]
        intro b hb hbeq
        exact hany (List.any_eq_true.mpr ⟨b, hb, hbeq⟩)
      rw [hfe]
      rfl

/-- Concrete instances for C6: the spec's two by-name examples. -/
theorem match_pairs_by_name_claim_witness :
    (∃ l, match_pairs ["a.jpg".data, "b.jpg".data] ["b.png".data, "a.png".data] .by_name =
        .ok l ∧
      l.length = (["a.jpg".data, "b.jpg".data] : List Name).length ∧
      ∀ i, i < (["a.jpg".data, "b.jpg".data] : List Name).length →
        ∃ p : Name × Name, l[i]? = some p ∧
          (["a.jpg".data, "b.jpg".data] : List Name)[i]? = some p.1 ∧
          p.2 ∈ (["b.png".data, "a.png".data] : List Name) ∧ pathStem p.2 = pathStem p.1) ∧
    match_pairs ["a.jpg".data, "c.jpg".data] ["a.png".data] .by_name =
      .error (.missingBacks
        ((["a.jpg".data, "c.jpg".data] : List Name).filter fun f =>
          !((["a.png".data] : List Name).any fun b => pathStem b == pathStem f))) :=
  ⟨(match_pairs_by_name_claim ["a.jpg".data, "b.jpg".data] ["b.png".data, "a.png".data]).1
      (by decide),
   (match_pairs_by_name_claim ["a.jpg".data, "c.jpg".data] ["a.png".data]).2 (by decide)⟩

/-! ### C10: duplicate stems among the backs -/

/-- C10: duplicate stems among the backs never cause an error — when every
front's stem occurs among the backs, by-name matching succeeds and pairs
front `i` with the LAST back in the backs sequence having that stem; in
particular two fronts sharing a stem receive that same single back. -/
theorem match_pairs_duplicate_stems (fronts backs : List Name)
    (h : ∀ f ∈ fronts, ∃ b ∈ backs, pathStem b = pathStem f) :
    ∃ l, match_pairs fronts backs .by_name = .ok l ∧ l.length = fronts.length ∧
      ∀ i, i < fronts.length →
        ∃ p : Name × Name, l[i]? = some p ∧ fronts[i]? = some p.1 ∧
          (backs.filter fun b => pathStem b == pathStem p.1).getLast? = some p.2 := by
  obtain ⟨l, hok, hlen, hidx⟩ := match_pairs_by_name_ok_core fronts backs h
  refine ⟨l, hok, hlen, ?_⟩
  intro i hi
  obtain ⟨f, b, h1, h2, h3⟩ := hidx i hi
  exact ⟨(f, b), h1, h2, h3⟩

/-- Concrete instance for C10: two fronts with stem `a`, two backs with stem
`a`; both fronts get the LAST back `a.jpeg`. -/
theorem match_pairs_duplicate_stems_witness :
    ∃ l, match_pairs ["a.jpg".data, "a.png".data] ["a.png".data, "a.jpeg".data] .by_name =
        .ok l ∧
      l.length = (["a.jpg".data, "a.png".data] : List Name).length ∧
      ∀ i, i < (["a.jpg".data, "a.png".data] : List Name).length →
        ∃ p : Name × Name, l[i]? = some p ∧
          (["a.jpg".data, "a.png".data] : List Name)[i]? = some p.1 ∧
          ((["a.png".data, "a.jpeg".data] : List Name).filter fun b =>
            pathStem b == pathStem p.1).getLast? = some p.2 :=
  match_pairs_duplicate_stems ["a.jpg".data, "a.png".data] ["a.png".data, "a.jpeg".data]
    (by decide)

/-! ### C7: by-order matching -/

/-- C7: in by-order mode, `match_pairs` fails with `CountMismatch` carrying
both counts exactly when the lengths differ; with equal lengths it returns
the positional pairing (front `i` with back `i`) and performs no filename
validation. -/
theorem match_pairs_by_order_claim (fronts backs : List Name) :
    (fronts.length ≠ backs.length →
      match_pairs fronts backs .by_order =
        .error (.countMismatch fronts.length backs.length)) ∧
    (fronts.length = backs.length →
      match_pairs fronts backs .by_order = .ok (fronts.zip backs) ∧
      ∀ i, i < fronts.length →
        ∃ f b, fronts[i]? = some f ∧ backs[i]? = some b ∧
          (fronts.zip backs)[i]? = some (f, b)) := by
  constructor
  · intro hne
    simp only [match_pairs]
    rw [if_pos hne]
  · intro heq
    constructor
    · simp only [match_pairs]
      rw [if_neg (not_not_intro heq)]
    · intro i hi
      have hib : i < backs.length := by omega
      refine ⟨fronts.get ⟨i, hi⟩, backs.get ⟨i, hib⟩, ?_, ?_, ?_⟩
      · rw [List.get_eq_getElem]
        exact List.getElem?_eq_getElem hi
      · rw [List.get_eq_getElem]
        exact List.getElem?_eq_getElem hib
      · have hz : i < (fronts.zip backs).length := by
          rw [List.length_zip]
          exact lt_min hi hib
        rw [List.getElem?_eq_getElem hz, List.getElem_zip]
        simp

/-- Concrete instances for C7: mismatched counts raise, equal counts zip. -/
theorem match_pairs_by_order_claim_witness :
    match_pairs ["x".data] ["y".data, "z".data] .by_order =
      .error (.countMismatch (["x".data] : List Name).length
        (["y".data, "z".data] : List Name).length) ∧
    match_pairs ["x".data] ["y".data] .by_order =
      .ok ((["x".data] : List Name).zip (["y".data] : List Name)) :=
  ⟨(match_pairs_by_order_claim ["x".data] ["y".data, "z".data]).1 (by decide),
   ((match_pairs_by_order_claim ["x".data] ["y".data]).2 (by decide)).1⟩

/-! ### C8: listImages filtering and ordering -/

/-- C8 counterexample: on a directory holding regular files `a.jpeg` and
`a.JPG` (equal stems `a`, so the tie-break decides), `list_images` returns
`[a.jpeg, a.JPG]` — the code tie-breaks on the LOWERCASED name, under which
`a.jpeg < a.jpg` — yet under the tie-break the claim asserts (the ORIGINAL
filename) `a.JPG < a.jpeg` strictly, so the output is not ordered by the
claimed key. -/
theorem list_images_claim_counterexample :
    list_images [⟨"a.jpeg".data, true⟩, ⟨"a.JPG".data, true⟩] =
      ["a.jpeg".data, "a.JPG".data] ∧
    ¬ claimedKeyLE "a.jpeg".data "a.JPG".data ∧
    claimedKeyLE "a.JPG".data "a.jpeg".data ∧
    ¬ List.Pairwise claimedKeyLE
      (list_images [⟨"a.jpeg".data, true⟩, ⟨"a.JPG".data, true⟩]) := by
  refine ⟨by decide, by decide, by decide, ?_⟩
  intro hpair
  have h01 : claimedKeyLE "a.jpeg".data "a.JPG".data := by
    have := hpair
    rw [show list_images [⟨"a.jpeg".data, true⟩, ⟨"a.JPG".data, true⟩] =
      ["a.jpeg".data, "a.JPG".data] from by decide] at this
    exact List.rel_of_pairwise_cons this (List.mem_cons_self _ _)
  exact (by decide : ¬ claimedKeyLE "a.jpeg".data "a.JPG".data) h01

/-- C8 (amended): `list_images` keeps exactly the regular files whose
extension is in the accepted raster set compared case-insensitively, and
returns them ordered by the sort key that zero-pads the stem to width 32,
with the LOWERCASED filename (not the original filename) as tie-break; on
the spec's example directory it returns `[card1.jpg, card2.png, card10.png]`. -/
theorem list_images_amended :
    (∀ entries : List DirEntry, ∀ s : Name,
      (s ∈ list_images entries ↔
        ∃ e ∈ entries, e.name = s ∧ e.isFile = true ∧
          exts.contains (lowerName (pathSuffix s)) = true) ∧
      List.Pairwise keyLE (list_images entries)) ∧
    list_images [⟨"card2.png".data, true⟩, ⟨"card10.png".data, true⟩,
        ⟨"card1.jpg".data, true⟩, ⟨"readme.txt".data, true⟩] =
      ["card1.jpg".data, "card2.png".data, "card10.png".data] := by
  constructor
  · intro entries s
    constructor
    · unfold list_images
      rw [(List.perm_insertionSort keyLE _).mem_iff, List.mem_map]
      constructor
      · rintro ⟨e, he, rfl⟩
        rw [List.mem_filter] at he
        obtain ⟨hfile, hext⟩ := Bool.and_eq_true_iff.mp he.2
        exact ⟨e, he.1, rfl, hfile, hext⟩
      · rintro ⟨e, he, rfl, hfile, hext⟩
        exact ⟨e, List.mem_filter.mpr ⟨he, by rw [hfile, hext]; rfl⟩, rfl⟩
    · exact List.sorted_insertionSort keyLE _
  · decide

end CardImposer